import Mathlib

/-!
Shallow embedding of the core of the `shelly` shell:
  * `src/command.rs` — the lexer (`Lexer::read_word`, `Lexer::tokenize`) and the
    command assembler (`CommandParser::parse`);
  * `src/completion.rs` — the trie-based completion engine (`TrieNode::insert`,
    `TrieNode::find_prefix`, `TrieNode::find_common_prefix`,
    `CompletionEngine::refresh_cache`).

Rust strings are modelled as Lean `String`; the lexer's cursor over `Vec<char>`
is modelled by structural recursion over `List Char`.  The trie's
`HashMap<char, TrieNode>` is modelled as an association list kept in insertion
order (`entry().or_insert` creates a fresh key at the end); every property
proved about it is either insensitive to child order or evaluated on concrete
tries.
-/

set_option autoImplicit false

namespace Shelly

/-- Tokens produced by the lexer (enum `Token` in `command.rs`). -/
inductive Token where
  | Word (text : String)
  | OutputRedirect (append : Bool)
  | ErrorRedirect (append : Bool)
  | Pipe
  | Background
  deriving DecidableEq, Repr

/-- `CommandParts` from `command.rs`; `PathBuf` is modelled as `String`. -/
structure CommandParts where
  command : String
  args : List String
  output_redirect : Option (String × Bool)
  error_redirect : Option (String × Bool)
  deriving DecidableEq, Repr

/-- The while-loop of `Lexer::read_word`.  Arguments: the remaining characters,
the current quote context (`in_quotes`), and the accumulated word.  Returns the
word together with the characters left unconsumed (the Rust code leaves
`self.position` at the first unconsumed character; on the unquoted-whitespace
`break` that is the whitespace character itself). -/
def readWordAux : List Char → Option Char → String → String × List Char
  | [], _, acc => (acc, [])
  | c :: cs, q, acc =>
    if c = '"' ∨ c = '\'' then
      match q with
      | none => readWordAux cs (some c) acc
      | some qc => if qc = c then readWordAux cs none acc else readWordAux cs q (acc.push c)
    else if c = '\\' then
      match q with
      | none =>
        match cs with
        | [] => (acc, [])
        | next :: cs' => readWordAux cs' none (acc.push next)
      | some qc =>
        match cs with
        | [] => (acc.push '\\', [])
        | next :: cs' =>
          if qc = '"' ∧ (next = '"' ∨ next = '\\') then
            readWordAux cs' (some qc) (acc.push next)
          else
            readWordAux cs' (some qc) ((acc.push '\\').push next)
    else if (c = ' ' ∨ c = '\t') ∧ q = none then
      (acc, c :: cs)
    else
      readWordAux cs q (acc.push c)

/-- `Lexer::read_word` starting from an unquoted position with an empty word. -/
def Lexer.read_word (cs : List Char) : String × List Char :=
  readWordAux cs none ""

/-- The while-loop of `Lexer::tokenize`, with an explicit fuel argument (one
unit per loop iteration; every iteration consumes at least one character, so
`input.length` units always suffice — see `readWordAux_rest_length_cons`).
Operator
characters are examined only at the start of a token (`self.peek()` in the
loop head); within a word they are consumed by `read_word` as ordinary
characters.  `cs.head? = some c` models `self.peek() == Some(c)`. -/
def tokenizeAux : Nat → List Char → List Token
  | 0, _ => []
  | _ + 1, [] => []
  | fuel + 1, c :: cs' =>
    if c = ' ' ∨ c = '\t' then tokenizeAux fuel cs'
    else if c = '>' then
      if cs'.head? = some '>' then Token.OutputRedirect true :: tokenizeAux fuel cs'.tail
      else Token.OutputRedirect false :: tokenizeAux fuel cs'
    else if c = '1' then
      if cs'.head? = some '>' then
        if cs'.tail.head? = some '>' then
          Token.OutputRedirect true :: tokenizeAux fuel cs'.tail.tail
        else Token.OutputRedirect false :: tokenizeAux fuel cs'.tail
      else Token.Word "1" :: tokenizeAux fuel cs'
    else if c = '2' then
      if cs'.head? = some '>' then
        if cs'.tail.head? = some '>' then
          Token.ErrorRedirect true :: tokenizeAux fuel cs'.tail.tail
        else Token.ErrorRedirect false :: tokenizeAux fuel cs'.tail
      else Token.Word "2" :: tokenizeAux fuel cs'
    else if c = '|' then Token.Pipe :: tokenizeAux fuel cs'
    else if c = '&' then Token.Background :: tokenizeAux fuel cs'
    else
      match readWordAux (c :: cs') none "" with
      | (w, rest) => (if w = "" then [] else [Token.Word w]) ++ tokenizeAux fuel rest

/-- `Lexer::tokenize` on a whole input line. -/
def Lexer.tokenize (s : String) : List Token :=
  tokenizeAux s.data.length s.data

/-- The token-consuming loop of `CommandParser::parse`.  Note that a redirect
token always consumes the following token via `tokens_iter.next()`, even when
that token is not a `Word` (in which case it is silently dropped). -/
def assembleAux : List Token → CommandParts → CommandParts
  | [], acc => acc
  | Token.Word w :: rest, acc =>
    if acc.command = "" then assembleAux rest { acc with command := w }
    else assembleAux rest { acc with args := acc.args ++ [w] }
  | [Token.OutputRedirect _], acc => acc
  | Token.OutputRedirect b :: Token.Word p :: rest, acc =>
    assembleAux rest { acc with output_redirect := some (p, b) }
  | Token.OutputRedirect _ :: Token.OutputRedirect _ :: rest, acc => assembleAux rest acc
  | Token.OutputRedirect _ :: Token.ErrorRedirect _ :: rest, acc => assembleAux rest acc
  | Token.OutputRedirect _ :: Token.Pipe :: rest, acc => assembleAux rest acc
  | Token.OutputRedirect _ :: Token.Background :: rest, acc => assembleAux rest acc
  | [Token.ErrorRedirect _], acc => acc
  | Token.ErrorRedirect b :: Token.Word p :: rest, acc =>
    assembleAux rest { acc with error_redirect := some (p, b) }
  | Token.ErrorRedirect _ :: Token.OutputRedirect _ :: rest, acc => assembleAux rest acc
  | Token.ErrorRedirect _ :: Token.ErrorRedirect _ :: rest, acc => assembleAux rest acc
  | Token.ErrorRedirect _ :: Token.Pipe :: rest, acc => assembleAux rest acc
  | Token.ErrorRedirect _ :: Token.Background :: rest, acc => assembleAux rest acc
  | Token.Pipe :: rest, acc => assembleAux rest acc
  | Token.Background :: rest, acc => assembleAux rest acc

/-- The initial `CommandParts` value built in `CommandParser::parse`. -/
def emptyParts : CommandParts :=
  { command := "", args := [], output_redirect := none, error_redirect := none }

/-- `CommandParser::parse`: tokenize the line, then assemble the tokens. -/
def CommandParser.parse (s : String) : CommandParts :=
  assembleAux (Lexer.tokenize s) emptyParts

/-- A token is either not a word or a non-empty word. -/
def wordNonempty : Token → Bool
  | .Word w => w != ""
  | _ => true

/-- No `Word` token of the list carries empty text. -/
def noEmptyWord (ts : List Token) : Bool :=
  ts.all wordNonempty

/-- Whether the token stream contains a `Word` in command/argument position,
i.e. one not consumed as a redirect target (a redirect token consumes the
following token whatever it is). -/
def hasFreeWord : List Token → Bool
  | [] => false
  | Token.Word _ :: _ => true
  | [Token.OutputRedirect _] => false
  | Token.OutputRedirect _ :: _ :: rest => hasFreeWord rest
  | [Token.ErrorRedirect _] => false
  | Token.ErrorRedirect _ :: _ :: rest => hasFreeWord rest
  | Token.Pipe :: rest => hasFreeWord rest
  | Token.Background :: rest => hasFreeWord rest


/-! ## The completion engine (`completion.rs`) -/

/-- `TrieNode` from `completion.rs`.  The `HashMap<char, TrieNode>` of children
is modelled as an association list in insertion order (`entry().or_insert`
appends a missing key). -/
inductive TrieNode where
  | mk (children : List (Char × TrieNode)) (is_end : Bool) (word : String)

def TrieNode.children : TrieNode → List (Char × TrieNode)
  | .mk ch _ _ => ch

def TrieNode.is_end : TrieNode → Bool
  | .mk _ e _ => e

def TrieNode.word : TrieNode → String
  | .mk _ _ w => w

/-- `TrieNode::new()`. -/
def TrieNode.new : TrieNode := .mk [] false ""

/-- `children.get(&c)` on the association-list model. -/
def lookupChild : List (Char × TrieNode) → Char → Option TrieNode
  | [], _ => none
  | (k, v) :: rest, c => if k = c then some v else lookupChild rest c

/-- Replacing the value stored under an existing key. -/
def updateChild : List (Char × TrieNode) → Char → TrieNode → List (Char × TrieNode)
  | [], _, _ => []
  | (k, v) :: rest, c, n => if k = c then (k, n) :: rest else (k, v) :: updateChild rest c n

/-- The loop of `TrieNode::insert`: walk/extend the path of the word's
characters (`entry(ch).or_insert(TrieNode::new())`), then mark the final node
terminal and store the full word in it. -/
def insertAux : TrieNode → List Char → String → TrieNode
  | .mk ch _ _, [], w => .mk ch true w
  | .mk ch e wd, c :: cs, w =>
    match lookupChild ch c with
    | some child => .mk (updateChild ch c (insertAux child cs w)) e wd
    | none => .mk (ch ++ [(c, insertAux TrieNode.new cs w)]) e wd

/-- `TrieNode::insert`. -/
def TrieNode.insert (t : TrieNode) (w : String) : TrieNode :=
  insertAux t w.data w

mutual
/-- `TrieNode::collect_words`: the terminal word of this node (if any) followed
by the words of the children in order. -/
def collectWords : TrieNode → List String
  | .mk ch e w => (if e then [w] else []) ++ collectList ch

def collectList : List (Char × TrieNode) → List String
  | [] => []
  | (_, t) :: rest => collectWords t ++ collectList rest
end

/-- The prefix walk of `TrieNode::find_prefix`; returns `[]` as soon as a
character has no child, otherwise collects every word below the reached node. -/
def findPrefixAux : TrieNode → List Char → List String
  | t, [] => collectWords t
  | t, c :: cs =>
    match lookupChild (TrieNode.children t) c with
    | some child => findPrefixAux child cs
    | none => []

/-- `TrieNode::find_prefix`. -/
def TrieNode.findPrefix (t : TrieNode) (pfx : String) : List String :=
  findPrefixAux t pfx.data

/-- Strict lexicographic order on character lists (codepoint order). -/
def lexLt : List Char → List Char → Bool
  | [], [] => false
  | [], _ :: _ => true
  | _ :: _, [] => false
  | a :: as, b :: bs => if a < b then true else if b < a then false else lexLt as bs

/-- Rust's `Ord` on `String` (byte-wise lexicographic, which agrees with
codepoint order because UTF-8 preserves it). -/
def strLt (a b : String) : Bool := lexLt a.data b.data

/-- Insertion sort on strings in `strLt` order; models `matches.sort()`. -/
def insertSorted (s : String) : List String → List String
  | [] => [s]
  | x :: xs => if strLt x s then x :: insertSorted s xs else s :: x :: xs

def sortStrings (l : List String) : List String :=
  l.foldr insertSorted []

/-- The `while !name.starts_with(&common_prefix) { common_prefix.pop(); }` loop
of `find_common_prefix`, with fuel (`cp.length` pops always suffice because the
empty string is a prefix of everything). -/
def shrinkPrefixF : Nat → List Char → List Char → List Char
  | 0, cp, _ => cp
  | fuel + 1, cp, name => if cp.isPrefixOf name then cp else shrinkPrefixF fuel cp.dropLast name

def shrinkTo (cp name : List Char) : List Char :=
  shrinkPrefixF cp.length cp name

/-- The longest-common-prefix computation of `find_common_prefix`: start from
the first (sorted) match and shrink against each further match. -/
def lcp : List String → String
  | [] => ""
  | m :: ms => ⟨ms.foldl (fun cp name => shrinkTo cp name.data) m.data⟩

/-- Models `Instant::now().elapsed().as_millis() as u64` in
`find_common_prefix`: the elapsed time of an `Instant` sampled immediately
after its creation is far below one millisecond, so `as_millis` truncates it
to `0` on every call. -/
def rustNowMs : Nat := 0

/-- The observable outcome of a completion request (§4.3 of the spec): the
Rust code returns `Some/None` from `find_common_prefix` and prints the match
list on the double-tab path; `ShowAll` stands for "returns `None` after
printing the sorted matches", `Ambiguous` for "returns `None` silently". -/
inductive CompletionOutcome where
  | NoMatch
  | Complete (s : String)
  | ExtendPrefix (s : String)
  | ShowAll (names : List String)
  | Ambiguous
  deriving DecidableEq, Repr

/-- `TrieNode::find_common_prefix`, together with the `LAST_TAB_TIME` global:
takes the stored timestamp and returns the outcome plus the new stored
timestamp.  Prefix lengths are compared in characters; the Rust code compares
byte lengths, which agrees whenever the input prefix is a prefix of the
common prefix (the only case the comparison distinguishes). -/
def TrieNode.findCommonPrefix (t : TrieNode) (pfx : String) (lastTab : Nat) :
    CompletionOutcome × Nat :=
  match TrieNode.findPrefix t pfx with
  | [] => (CompletionOutcome.NoMatch, lastTab)
  | [m] => (CompletionOutcome.Complete (m ++ " "), lastTab)
  | ms =>
    let sorted := sortStrings ms
    let cp := lcp sorted
    if pfx.data.length < cp.data.length then
      (CompletionOutcome.ExtendPrefix cp, lastTab)
    else if rustNowMs - lastTab < 500 then
      (CompletionOutcome.ShowAll sorted, rustNowMs)
    else
      (CompletionOutcome.Ambiguous, rustNowMs)

/-- Modelled from the spec (§4.3, the claim's reference semantics for the
double-press policy): identical to `TrieNode.findCommonPrefix` except that the
caller's actual timestamp `now` is consulted, as the spec's
`complete(partial, now)` interface prescribes. -/
def specComplete (t : TrieNode) (pfx : String) (now lastTab : Nat) :
    CompletionOutcome × Nat :=
  match TrieNode.findPrefix t pfx with
  | [] => (CompletionOutcome.NoMatch, lastTab)
  | [m] => (CompletionOutcome.Complete (m ++ " "), lastTab)
  | ms =>
    let sorted := sortStrings ms
    let cp := lcp sorted
    if pfx.data.length < cp.data.length then
      (CompletionOutcome.ExtendPrefix cp, lastTab)
    else if now - lastTab < 500 then
      (CompletionOutcome.ShowAll sorted, now)
    else
      (CompletionOutcome.Ambiguous, now)

/-- `CompletionEngine::refresh_cache` as a trie transformation: insert every
builtin name, then every executable name found on the search path, into the
existing trie behind the write lock.  (The directory scan itself is I/O; its
outcome is the `pathNames` list.)  Note the function never clears the trie. -/
def refreshModel (t : TrieNode) (builtins pathNames : List String) : TrieNode :=
  (builtins ++ pathNames).foldl (fun acc n => TrieNode.insert acc n) t

/-- A name is retrievable from the trie: walking its characters reaches a
terminal node storing exactly that word (the invariant `insert` establishes). -/
def containsAux : TrieNode → List Char → String → Bool
  | t, [], w => t.is_end && t.word == w
  | t, c :: cs, w =>
    match lookupChild (TrieNode.children t) c with
    | some child => containsAux child cs w
    | none => false

def TrieNode.containsName (t : TrieNode) (w : String) : Bool :=
  containsAux t w.data w

/-- The `{"cd","cat","car"}` trie of the spec's §8 example. -/
def trieCdCatCar : TrieNode :=
  TrieNode.insert (TrieNode.insert (TrieNode.insert TrieNode.new "cd") "cat") "car"

/-! ## Lemmas about `read_word` -/

/-- The characters left unconsumed by `read_word` are never more numerous than
the input. -/
theorem readWordAux_rest_length :
    ∀ (cs : List Char) (q : Option Char) (acc : String),
      (readWordAux cs q acc).2.length ≤ cs.length := by
  intro cs q acc
  induction cs, q, acc using readWordAux.induct <;>
    rw [readWordAux.eq_def] <;> simp_all <;>
    first
    | omega
    | (split <;> simp_all <;> omega)

/-- Step equation: an opening quote enters quote mode without emitting. -/
theorem readWordAux_quote_open (c : Char) (cs : List Char) (acc : String)
    (h : c = '"' ∨ c = '\'') :
    readWordAux (c :: cs) none acc = readWordAux cs (some c) acc := by
  rw [readWordAux.eq_def]; simp [h]

/-- Step equation: the matching quote character closes quote mode. -/
theorem readWordAux_quote_close (c : Char) (cs : List Char) (acc : String)
    (h : c = '"' ∨ c = '\'') :
    readWordAux (c :: cs) (some c) acc = readWordAux cs none acc := by
  rw [readWordAux.eq_def]; simp [h]

/-- Step equation: the other quote character inside a quote is literal. -/
theorem readWordAux_quote_other (c qc : Char) (cs : List Char) (acc : String)
    (h : c = '"' ∨ c = '\'') (hne : qc ≠ c) :
    readWordAux (c :: cs) (some qc) acc = readWordAux cs (some qc) (acc.push c) := by
  rw [readWordAux.eq_def]; simp [h, hne]

/-- Step equation: an unquoted backslash at end of input is dropped. -/
theorem readWordAux_backslash_none_nil (acc : String) :
    readWordAux ['\\'] none acc = (acc, []) := by
  rw [readWordAux.eq_def]; simp

/-- Step equation: an unquoted backslash emits the next character verbatim
(the `'n' => word.push('n')` arm of the Rust code coincides with the default
arm, so every escaped character is passed through as itself). -/
theorem readWordAux_backslash_none (next : Char) (cs : List Char) (acc : String) :
    readWordAux ('\\' :: next :: cs) none acc = readWordAux cs none (acc.push next) := by
  rw [readWordAux.eq_def]; simp

/-- Step equation: a quoted backslash at end of input is kept. -/
theorem readWordAux_backslash_some_nil (qc : Char) (acc : String) :
    readWordAux ['\\'] (some qc) acc = (acc.push '\\', []) := by
  rw [readWordAux.eq_def]; simp

/-- Step equation: a backslash inside quotes consumes the following character;
only inside double quotes, and only before `"` or `\`, is the backslash itself
dropped. -/
theorem readWordAux_backslash_some (qc next : Char) (cs : List Char) (acc : String) :
    readWordAux ('\\' :: next :: cs) (some qc) acc =
      if qc = '"' ∧ (next = '"' ∨ next = '\\') then
        readWordAux cs (some qc) (acc.push next)
      else
        readWordAux cs (some qc) ((acc.push '\\').push next) := by
  rw [readWordAux.eq_def]; simp

/-- Step equation: unquoted whitespace terminates the word, leaving the
whitespace character unconsumed. -/
theorem readWordAux_break (c : Char) (cs : List Char) (acc : String)
    (h : c = ' ' ∨ c = '\t') :
    readWordAux (c :: cs) none acc = (acc, c :: cs) := by
  have h1 : ¬(c = '"' ∨ c = '\'') := by rcases h with h | h <;> subst h <;> decide
  have h2 : ¬(c = '\\') := by rcases h with h | h <;> subst h <;> decide
  rw [readWordAux.eq_def]; simp [h1, h2, h]

/-- Step equation: any other character is pushed onto the word. -/
theorem readWordAux_plain (c : Char) (q : Option Char) (cs : List Char) (acc : String)
    (h1 : ¬(c = '"' ∨ c = '\'')) (h2 : ¬(c = '\\'))
    (h3 : ¬((c = ' ' ∨ c = '\t') ∧ q = none)) :
    readWordAux (c :: cs) q acc = readWordAux cs q (acc.push c) := by
  rw [readWordAux.eq_def]; simp [h1, h2, h3]

/-- When `read_word` is entered at a non-whitespace character it consumes at
least that character. -/
theorem readWordAux_rest_length_cons (c : Char) (cs : List Char) (acc : String)
    (hsp : ¬(c = ' ' ∨ c = '\t')) :
    (readWordAux (c :: cs) none acc).2.length ≤ cs.length := by
  by_cases hq : c = '"' ∨ c = '\''
  · rw [readWordAux_quote_open c cs acc hq]
    exact readWordAux_rest_length cs (some c) acc
  · by_cases hb : c = '\\'
    · subst hb
      match cs with
      | [] => rw [readWordAux_backslash_none_nil]
      | next :: cs' =>
        rw [readWordAux_backslash_none]
        exact Nat.le_succ_of_le (readWordAux_rest_length cs' none (acc.push next))
    · rw [readWordAux_plain c none cs acc hq hb (by simp [hsp])]
      exact readWordAux_rest_length cs none (acc.push c)

/-- The word emitted from the unquoted-whitespace `break` leaves the whitespace
character in place: the rest of the input is empty or starts with a space/tab. -/
theorem readWordAux_rest_shape :
    ∀ (cs : List Char) (q : Option Char) (acc : String),
      (readWordAux cs q acc).2 = [] ∨
        ∃ c cs', (readWordAux cs q acc).2 = c :: cs' ∧ (c = ' ' ∨ c = '\t') := by
  intro cs q acc
  induction cs, q, acc using readWordAux.induct <;>
    rw [readWordAux.eq_def] <;> simp_all <;>
    first
    | tauto
    | (split <;> simp_all <;> tauto)

/-! ## Lemmas about the lexer and assembler -/

/-- The tokenizer never emits an empty `Word`: words produced by `read_word`
are guarded by `!word.is_empty()`, and the literal words "1" and "2" are
non-empty. -/
theorem tokenizeAux_no_empty :
    ∀ (fuel : Nat) (cs : List Char), noEmptyWord (tokenizeAux fuel cs) = true := by
  intro fuel cs
  induction fuel, cs using tokenizeAux.induct <;>
    rw [tokenizeAux.eq_def] <;>
    simp_all [noEmptyWord, wordNonempty] <;>
    (split <;> simp_all [wordNonempty])

/-- The tokenizer emits at most one token per input character. -/
theorem tokenizeAux_length_le :
    ∀ (fuel : Nat) (cs : List Char), (tokenizeAux fuel cs).length ≤ cs.length := by
  intro fuel cs
  induction fuel, cs using tokenizeAux.induct <;> rw [tokenizeAux.eq_def] <;> simp_all
  all_goals try omega
  rename_i fuel c cs' w rest hsp h1 h2 h3 h4 h5 heq ih
  have hrest : rest.length ≤ cs'.length := by
    have hle := readWordAux_rest_length_cons c cs' "" (by tauto)
    rw [heq] at hle
    exact hle
  split <;> simp <;> omega

/-- The assembled `command` field is empty exactly when it was empty on entry
and no free word occurs in the stream (provided no word is empty, which the
tokenizer guarantees). -/
theorem assembleAux_command_empty :
    ∀ (ts : List Token) (acc : CommandParts), noEmptyWord ts = true →
      ((assembleAux ts acc).command = "" ↔
        (acc.command = "" ∧ hasFreeWord ts = false)) := by
  intro ts acc
  induction ts, acc using assembleAux.induct <;>
    intro hne <;>
    simp_all [assembleAux, hasFreeWord, noEmptyWord, wordNonempty]

/-- A trailing redirect token (with nothing after it) is dropped by the
assembler without any effect on the result. -/
theorem assembleAux_trailing (tok : Token)
    (htok : (∃ b, tok = Token.OutputRedirect b) ∨ ∃ b, tok = Token.ErrorRedirect b) :
    ∀ (ts : List Token) (acc : CommandParts),
      assembleAux (ts ++ [tok]) acc = assembleAux ts acc := by
  intro ts acc
  induction ts, acc using assembleAux.induct <;>
    (try rcases htok with ⟨b', hb⟩ | ⟨b', hb⟩ <;> subst hb) <;>
    simp_all [assembleAux]

/-! ## Lemmas about the trie -/

theorem lookupChild_updateChild_self :
    ∀ (l : List (Char × TrieNode)) (c : Char) (n u : TrieNode),
      lookupChild l c = some u → lookupChild (updateChild l c n) c = some n := by
  intro l c n u h
  induction l with
  | nil => simp [lookupChild] at h
  | cons kv rest ih =>
    obtain ⟨k, v⟩ := kv
    by_cases hk : k = c <;> simp_all [lookupChild, updateChild]

theorem lookupChild_updateChild_ne :
    ∀ (l : List (Char × TrieNode)) (c c' : Char) (n : TrieNode), c ≠ c' →
      lookupChild (updateChild l c n) c' = lookupChild l c' := by
  intro l c c' n hne
  induction l with
  | nil => simp [lookupChild, updateChild]
  | cons kv rest ih =>
    obtain ⟨k, v⟩ := kv
    by_cases hk : k = c <;> simp_all [lookupChild, updateChild]

theorem updateChild_lookup_eq :
    ∀ (l : List (Char × TrieNode)) (c : Char) (u : TrieNode),
      lookupChild l c = some u → updateChild l c u = l := by
  intro l c u
  induction l with
  | nil => simp [lookupChild]
  | cons kv rest ih =>
    obtain ⟨k, v⟩ := kv
    by_cases hk : k = c <;> simp_all [lookupChild, updateChild]

theorem lookupChild_append_self :
    ∀ (l : List (Char × TrieNode)) (c : Char) (n : TrieNode),
      lookupChild l c = none → lookupChild (l ++ [(c, n)]) c = some n := by
  intro l c n h
  induction l with
  | nil => simp [lookupChild]
  | cons kv rest ih =>
    obtain ⟨k, v⟩ := kv
    by_cases hk : k = c <;> simp_all [lookupChild]

theorem lookupChild_append_ne :
    ∀ (l : List (Char × TrieNode)) (c c' : Char) (n : TrieNode), c ≠ c' →
      lookupChild (l ++ [(c, n)]) c' = lookupChild l c' := by
  intro l c c' n hne
  induction l with
  | nil => simp [lookupChild, hne]
  | cons kv rest ih =>
    obtain ⟨k, v⟩ := kv
    by_cases hk : k = c' <;> simp_all [lookupChild]

/-- After inserting a word, that word is retrievable. -/
theorem containsAux_insertAux_self :
    ∀ (cs : List Char) (t : TrieNode) (w : String),
      containsAux (insertAux t cs w) cs w = true := by
  intro cs
  induction cs with
  | nil =>
    intro t w
    obtain ⟨ch, e, wd⟩ := t
    simp [insertAux, containsAux, TrieNode.is_end, TrieNode.word]
  | cons c cs' ih =>
    intro t w
    obtain ⟨ch, e, wd⟩ := t
    simp only [insertAux]
    match hl : lookupChild ch c with
    | some child =>
      simp only [containsAux, TrieNode.children,
        lookupChild_updateChild_self ch c (insertAux child cs' w) child hl]
      exact ih child w
    | none =>
      simp only [containsAux, TrieNode.children,
        lookupChild_append_self ch c (insertAux TrieNode.new cs' w) hl]
      exact ih TrieNode.new w

/-- Inserting a word that is already retrievable leaves the trie unchanged. -/
theorem insertAux_contained :
    ∀ (cs : List Char) (t : TrieNode) (w : String),
      containsAux t cs w = true → insertAux t cs w = t := by
  intro cs
  induction cs with
  | nil =>
    intro t w h
    obtain ⟨ch, e, wd⟩ := t
    simp [containsAux, TrieNode.is_end, TrieNode.word] at h
    simp [insertAux, h.1, h.2]
  | cons c cs' ih =>
    intro t w h
    obtain ⟨ch, e, wd⟩ := t
    simp only [containsAux, TrieNode.children] at h
    match hl : lookupChild ch c with
    | some child =>
      rw [hl] at h
      simp only [insertAux, hl]
      rw [ih child w h, updateChild_lookup_eq ch c child hl]
    | none => rw [hl] at h; exact absurd h (by simp)

/-- A word distinct from the inserted one is never retrievable from a trie
freshly created along the inserted word's path. -/
theorem containsAux_fresh :
    ∀ (ds cs : List Char) (v w : String), v ≠ w →
      containsAux (insertAux TrieNode.new ds w) cs v = false := by
  intro ds
  induction ds with
  | nil =>
    intro cs v w hne
    match cs with
    | [] =>
      simp [insertAux, TrieNode.new, containsAux, TrieNode.is_end, TrieNode.word]
      exact fun h => hne h.symm
    | c :: cs' =>
      simp [insertAux, TrieNode.new, containsAux, TrieNode.children, lookupChild]
  | cons d ds' ih =>
    intro cs v w hne
    match cs with
    | [] =>
      simp [insertAux, TrieNode.new, containsAux, TrieNode.is_end, lookupChild]
    | c :: cs' =>
      by_cases hc : d = c
      · subst hc
        simp [insertAux, TrieNode.new, containsAux, TrieNode.children, lookupChild]
        exact ih cs' v w hne
      · simp [insertAux, TrieNode.new, containsAux, TrieNode.children, lookupChild, hc]

theorem str_ext {a b : String} (h : a.data = b.data) : a = b :=
  String.ext h

/-- Inserting `w` does not affect the retrievability of any other word. -/
theorem containsAux_insertAux_other :
    ∀ (ds cs p : List Char) (t : TrieNode) (v w : String),
      v ≠ w → v.data = p ++ cs → w.data = p ++ ds →
      containsAux (insertAux t ds w) cs v = containsAux t cs v := by
  intro ds
  induction ds with
  | nil =>
    intro cs p t v w hne hv hw
    obtain ⟨ch, e, wd⟩ := t
    match cs with
    | [] => exact absurd (str_ext (by rw [hv, hw])) hne
    | c :: cs' => simp [insertAux, containsAux, TrieNode.children]
  | cons d ds' ih =>
    intro cs p t v w hne hv hw
    obtain ⟨ch, e, wd⟩ := t
    match cs with
    | [] =>
      cases hl : lookupChild ch d <;>
        simp [insertAux, hl, containsAux, TrieNode.is_end, TrieNode.word]
    | c :: cs' =>
      by_cases hc : c = d
      · subst hc
        cases hl : lookupChild ch c with
        | some child =>
          have hup : lookupChild (updateChild ch c (insertAux child ds' w)) c
              = some (insertAux child ds' w) :=
            lookupChild_updateChild_self ch c _ child hl
          simp only [insertAux, hl, containsAux, TrieNode.children, hup]
          exact ih cs' (p ++ [c]) child v w hne (by simpa using hv) (by simpa using hw)
        | none =>
          have hap : lookupChild (ch ++ [(c, insertAux TrieNode.new ds' w)]) c
              = some (insertAux TrieNode.new ds' w) :=
            lookupChild_append_self ch c _ hl
          simp only [insertAux, hl, containsAux, TrieNode.children, hap]
          exact containsAux_fresh ds' cs' v w hne
      · have hdc : d ≠ c := fun hh => hc hh.symm
        cases hl : lookupChild ch d with
        | some child =>
          have hup := lookupChild_updateChild_ne ch d c (insertAux child ds' w) hdc
          simp [insertAux, hl, containsAux, TrieNode.children, hup]
        | none =>
          have hap := lookupChild_append_ne ch d c (insertAux TrieNode.new ds' w) hdc
          simp [insertAux, hl, containsAux, TrieNode.children, hap]

/-- The retrievable set after an insert is the old set plus the new word. -/
theorem containsName_insert (t : TrieNode) (v w : String) :
    TrieNode.containsName (TrieNode.insert t w) v
      = (TrieNode.containsName t v || v == w) := by
  by_cases hvw : v = w
  · subst hvw
    simp [TrieNode.containsName, TrieNode.insert, containsAux_insertAux_self]
  · have hother := containsAux_insertAux_other w.data v.data [] t v w hvw rfl rfl
    simp [TrieNode.containsName, TrieNode.insert, hother, hvw]

/-- `TrieNode::insert` is idempotent as a trie transformation. -/
theorem insert_idem (t : TrieNode) (w : String) :
    TrieNode.insert (TrieNode.insert t w) w = TrieNode.insert t w :=
  insertAux_contained w.data (TrieNode.insert t w) w (containsAux_insertAux_self w.data t w)

theorem containsName_foldl_insert :
    ∀ (N : List String) (t : TrieNode) (v : String),
      (N.foldl (fun acc n => TrieNode.insert acc n) t).containsName v
        = (t.containsName v || N.contains v) := by
  intro N
  induction N with
  | nil => simp
  | cons n N' ih =>
    intro t v
    by_cases hv : v = n
    · simp [ih, containsName_insert, hv]
    · have hb : (v == n) = false := beq_eq_false_iff_ne.mpr hv
      simp [ih, containsName_insert, hv, hb, Bool.or_assoc]

theorem foldl_insert_contained :
    ∀ (N : List String) (t : TrieNode),
      (∀ n, N.contains n = true → t.containsName n = true) →
      N.foldl (fun acc n => TrieNode.insert acc n) t = t := by
  intro N
  induction N with
  | nil => intro t _; rfl
  | cons n N' ih =>
    intro t h
    have hn : t.containsName n = true := h n (by simp)
    have ht : TrieNode.insert t n = t := insertAux_contained n.data t n hn
    simp only [List.foldl_cons, ht]
    refine ih t fun m hm => h m ?_
    simp at hm ⊢
    exact Or.inr hm

/-- What `refresh_cache` really does to the retrievable set: it adds the
builtins and the path executables to whatever was already there. -/
theorem containsName_refreshModel (t : TrieNode) (B P : List String) (v : String) :
    (refreshModel t B P).containsName v = (t.containsName v || (B ++ P).contains v) :=
  containsName_foldl_insert (B ++ P) t v

/-- Running `refresh_cache` twice with the same name lists is the same as
running it once, as an equality of tries. -/
theorem refreshModel_idem (t : TrieNode) (B P : List String) :
    refreshModel (refreshModel t B P) B P = refreshModel t B P := by
  apply foldl_insert_contained
  intro n hn
  rw [containsName_refreshModel]
  simp at hn ⊢
  exact Or.inr hn

/-! ## Claims -/

/-- C1 counterexample: the claim's asserted tokenizations are false on the
code.  `foo>bar` is a single word (operator characters are ordinary inside a
word), and `123` is the three words "1", "2", "3" (the digit branches fire at
token start even when no `>` follows a longer run). -/
theorem c1_counterexample :
    Lexer.tokenize "foo>bar" = [Token.Word "foo>bar"] ∧
    Lexer.tokenize "foo>bar" ≠
      [Token.Word "foo", Token.OutputRedirect false, Token.Word "bar"] ∧
    Lexer.tokenize "123" = [Token.Word "1", Token.Word "2", Token.Word "3"] ∧
    Lexer.tokenize "123" ≠ [Token.Word "123"] := by
  refine ⟨by decide, by decide, by decide, by decide⟩

/-- C1 (amended): a word, once begun, terminates only at unescaped, unquoted
whitespace or end of input — never at an operator character; operator tokens
(`>`, `>>`, `1>`, `1>>`, `2>`, `2>>`, `|`, `&`) are recognized only when their
first character stands at the start of a token.  Hence `foo>bar` is the single
word `foo>bar`, `123` is the words "1", "2", "3", while `1>x` at token start
is an output redirect followed by the word `x`. -/
theorem c1_amended :
    (∀ (cs : List Char) (q : Option Char) (acc : String),
        (readWordAux cs q acc).2 = [] ∨
          ∃ c cs', (readWordAux cs q acc).2 = c :: cs' ∧ (c = ' ' ∨ c = '\t')) ∧
    Lexer.tokenize "foo>bar" = [Token.Word "foo>bar"] ∧
    Lexer.tokenize "123" = [Token.Word "1", Token.Word "2", Token.Word "3"] ∧
    Lexer.tokenize "1>x" = [Token.OutputRedirect false, Token.Word "x"] ∧
    Lexer.tokenize "foo >bar" =
      [Token.Word "foo", Token.OutputRedirect false, Token.Word "bar"] := by
  refine ⟨readWordAux_rest_shape, by decide, by decide, by decide, by decide⟩

/-- C2 counterexample: `refresh_cache` does not discard the previous trie.  A
stale name ("ghost", inserted before the refresh and absent from both the
builtin list and the path list) is still retrieved by `find_prefix` after a
refresh, contradicting the claim that the retrievable set equals exactly
builtins ∪ path executables. -/
theorem c2_counterexample :
    TrieNode.findPrefix
        (refreshModel (TrieNode.insert TrieNode.new "ghost") ["echo"] ["ls"]) "ghost"
      = ["ghost"] ∧
    "ghost" ∉ (["echo"] ++ ["ls"] : List String) := by
  refine ⟨by decide, by decide⟩

/-- C2 (amended): `refresh_cache` repopulates without discarding: after
`refresh()`, the set of retrievable names equals the previously retrievable
names united with the builtins and the executable names currently on the
search path — so a name whose executable was removed before the refresh
remains retrievable afterwards. -/
theorem c2_amended :
    ∀ (t : TrieNode) (B P : List String) (v : String),
      (refreshModel t B P).containsName v
        = (t.containsName v || (B ++ P).contains v) := by
  intro t B P v
  exact containsName_refreshModel t B P v

/-- C3: the code's double-press policy is broken at its clock read.
`Instant::now().elapsed().as_millis()` is always `0`, so on the very first
ambiguous request (initial `LAST_TAB_TIME = 0`) the check `0 - 0 < 500`
succeeds and the code immediately prints all matches (`ShowAll`), never
returning the claimed first-call `Ambiguous`.  The spec-faithful model with a
real caller timestamp shows the claimed behavior: `Ambiguous` at t0 = 1000ms,
then `ShowAll (["car","cat"])` at t0 + 100ms. -/
theorem c3_code_divergence :
    TrieNode.findCommonPrefix trieCdCatCar "ca" 0
      = (CompletionOutcome.ShowAll ["car", "cat"], 0) ∧
    specComplete trieCdCatCar "ca" 1000 0 = (CompletionOutcome.Ambiguous, 1000) ∧
    specComplete trieCdCatCar "ca" 1100 1000
      = (CompletionOutcome.ShowAll ["car", "cat"], 1100) := by
  refine ⟨by decide, by decide, by decide⟩

/-- C4 counterexample: inside single quotes a backslash is not inert.  On the
input `'ab\'` (quote, a, b, backslash, quote) the backslash consumes the
following single quote as a literal character, so the word is `ab\'` — not the
claimed `ab\` with the quote region closed. -/
theorem c4_counterexample :
    Lexer.tokenize "'ab\\'" = [Token.Word "ab\\'"] ∧
    Lexer.tokenize "'ab\\'" ≠ [Token.Word "ab\\"] := by
  refine ⟨by decide, by decide⟩

/-- C4 (amended): inside single quotes a backslash consumes the immediately
following character and emits both literally; in particular a single quote
immediately after a backslash is taken literally and does not close the
quoted region.  On `'ab\'` the produced word is `ab\'`. -/
theorem c4_amended :
    (∀ (c : Char) (cs : List Char) (acc : String),
        readWordAux ('\\' :: c :: cs) (some '\'') acc =
          readWordAux cs (some '\'') ((acc.push '\\').push c)) ∧
    Lexer.tokenize "'ab\\'" = [Token.Word "ab\\'"] ∧
    (CommandParser.parse "'ab\\'").command = "ab\\'" := by
  refine ⟨fun c cs acc => ?_, by decide, by decide⟩
  rw [readWordAux_backslash_some]
  simp

/-- C5 counterexample: the line `> file` contains a word (`file`, the redirect
target), yet the parsed `command` field is empty — contradicting the claim
that `command` is non-empty whenever the line contains at least one word,
including a word serving as a redirect target. -/
theorem c5_counterexample :
    (CommandParser.parse "> file").command = "" ∧
    Token.Word "file" ∈ Lexer.tokenize "> file" := by
  refine ⟨by decide, by decide⟩

/-- C5 (amended): `command` is empty exactly when the line contains no free
word, i.e. no `Word` token outside redirect-target position (a redirect
operator consumes the token that follows it). -/
theorem c5_amended :
    ∀ s : String,
      ((CommandParser.parse s).command = "" ↔
        hasFreeWord (Lexer.tokenize s) = false) := by
  intro s
  have h := assembleAux_command_empty (Lexer.tokenize s) emptyParts
    (tokenizeAux_no_empty s.data.length s.data)
  exact h.trans (and_iff_right rfl)

/-- C6: inside double quotes a backslash followed by `"` or `\` collapses to
the escaped character alone, while a backslash followed by any other character
passes through as both characters; and parsing `echo 'a b' "c\"d"` yields the
arguments `["a b", "c\"d"]`. -/
theorem c6_double_quote_backslash :
    (∀ (c : Char) (cs : List Char) (acc : String),
        readWordAux ('\\' :: c :: cs) (some '"') acc =
          if c = '"' ∨ c = '\\' then readWordAux cs (some '"') (acc.push c)
          else readWordAux cs (some '"') ((acc.push '\\').push c)) ∧
    (CommandParser.parse "echo 'a b' \"c\\\"d\"").args = ["a b", "c\"d"] := by
  refine ⟨fun c cs acc => ?_, by decide⟩
  rw [readWordAux_backslash_some]
  simp

/-- C7: a trailing redirect operator with no following word is silently
dropped: appending it to any token sequence leaves the assembled result
completely unchanged, and no error is surfaced (the assembler is total); on
`echo >` and `cmd 2>` the respective redirect fields are `none`. -/
theorem c7_trailing_redirect_dropped :
    (∀ (b : Bool) (ts : List Token) (acc : CommandParts),
        assembleAux (ts ++ [Token.OutputRedirect b]) acc = assembleAux ts acc ∧
        assembleAux (ts ++ [Token.ErrorRedirect b]) acc = assembleAux ts acc) ∧
    (CommandParser.parse "echo >").output_redirect = none ∧
    (CommandParser.parse "cmd 2>").error_redirect = none := by
  refine ⟨fun b ts acc => ⟨?_, ?_⟩, by decide, by decide⟩
  · exact assembleAux_trailing _ (Or.inl ⟨b, rfl⟩) ts acc
  · exact assembleAux_trailing _ (Or.inr ⟨b, rfl⟩) ts acc

/-- C8: `tokenize` and `parse` are total — the embedding is structurally
recursive and returns a result on every input, emitting at most one token per
character; the empty line, unterminated single and double quotes, and the
empty-partial completion request are all defined inputs with definite
results. -/
theorem c8_totality :
    (∀ s : String, (Lexer.tokenize s).length ≤ s.length) ∧
    Lexer.tokenize "" = [] ∧
    CommandParser.parse "" = emptyParts ∧
    CommandParser.parse "'abc" =
      { command := "abc", args := [], output_redirect := none, error_redirect := none } ∧
    CommandParser.parse "\"abc" =
      { command := "abc", args := [], output_redirect := none, error_redirect := none } ∧
    TrieNode.findCommonPrefix trieCdCatCar "" 0
      = (CompletionOutcome.ExtendPrefix "c", 0) ∧
    TrieNode.findPrefix trieCdCatCar "" = ["cd", "cat", "car"] := by
  refine ⟨fun s => ?_, by decide, by decide, by decide, by decide, by decide, by decide⟩
  exact tokenizeAux_length_le s.data.length s.data

/-- C9: trie insertion is idempotent — re-inserting a present name leaves the
trie (hence every `find_prefix` result) unchanged — and consequently running
`refresh` twice with unchanged name lists equals running it once. -/
theorem c9_insert_idempotent :
    (∀ (t : TrieNode) (w : String),
        TrieNode.insert (TrieNode.insert t w) w = TrieNode.insert t w) ∧
    (∀ (t : TrieNode) (w pfx : String),
        TrieNode.findPrefix (TrieNode.insert (TrieNode.insert t w) w) pfx
          = TrieNode.findPrefix (TrieNode.insert t w) pfx) ∧
    (∀ (t : TrieNode) (B P : List String),
        refreshModel (refreshModel t B P) B P = refreshModel t B P) ∧
    (∀ (t : TrieNode) (B P : List String) (pfx : String),
        TrieNode.findPrefix (refreshModel (refreshModel t B P) B P) pfx
          = TrieNode.findPrefix (refreshModel t B P) pfx) := by
  refine ⟨insert_idem, fun t w pfx => by rw [insert_idem], refreshModel_idem,
    fun t B P pfx => by rw [refreshModel_idem]⟩

/-- C10: the tokenizer never emits an empty `Word` token — a quoted empty
string contributes no token at all — so on `'' foo` the word `foo` becomes the
command. -/
theorem c10_no_empty_words :
    (∀ s : String, noEmptyWord (Lexer.tokenize s) = true) ∧
    CommandParser.parse "'' foo" =
      { command := "foo", args := [], output_redirect := none, error_redirect := none } := by
  refine ⟨fun s => tokenizeAux_no_empty s.data.length s.data, by decide⟩
